import Mathlib

/-!
# TypedJinja VS Code extension: cursor-context resolution, stub parsing, completions

A shallow embedding of the in-repo logic of the TypedJinja LSP server
(`typedjinja-vscode/src/server.ts`).  The server source contains several
concatenated evolutions of the same server; the embedded functions are, per
the claim sources:

* `getWordAtScan`   — the exec-loop version of `getWordAt(text, pos)`
  (regex `[a-zA-Z_][a-zA-Z0-9_]*` scanned globally, returning the first
  match whose span contains the position).
* `getWordAtExpand` — the expand-outwards version of
  `getWordAt(doc, position)` working on the line text.
* `getExpressionBeforeDot` — regex `([a-zA-Z0-9_\.\)\(\[\]]+)\.$` applied
  to the text before the cursor.
* `getDefinitionContext` — include-directive detection (global regex
  exec loop) with fall-through to macro-call detection plus the
  from-import scan of the whole document.
* `parseStub` — the `.pyi` stub line parser
  (regex `^([a-zA-Z_][a-zA-Z0-9_]*)\s*:\s*([^\#]+?)(?:\s*#\s*(.*))?$`,
  identical in `parseStub` and `parseStubFile`).
* `completionPipeline` — the attribute-completion filter/sort of
  `connection.onCompletion` (filter by prefix, public names before
  `_`-private ones, locale order inside each group).

Strings are `List Char`, positions are `Nat`.  JavaScript quirks are kept:
out-of-range `lineText[i]` is `undefined`, and
`/[A-Za-z0-9_]/.test(undefined)` tests the string "undefined", which
contains word characters and therefore yields `true`; `String.slice`
clamps its arguments.  Regex matching for the concrete patterns above is
implemented as the equivalent deterministic scanners (each character class
in the patterns is disjoint from its follow set, so backtracking never
produces a different result).
-/

/-- Character class `[A-Za-z0-9_]` (a JS "word" character), by code point. -/
def isWordChar (c : Char) : Bool :=
  let n := c.toNat
  (decide (65 ≤ n) && decide (n ≤ 90)) || (decide (97 ≤ n) && decide (n ≤ 122)) ||
  (decide (48 ≤ n) && decide (n ≤ 57)) || n == 95

/-- Character class `[A-Za-z_]` (start of an identifier), by code point. -/
def isIdentStartChar (c : Char) : Bool :=
  let n := c.toNat
  (decide (65 ≤ n) && decide (n ≤ 90)) || (decide (97 ≤ n) && decide (n ≤ 122)) ||
  n == 95

/-- JavaScript `\s` (also the set trimmed by `String.prototype.trim`). -/
def isJsWs (c : Char) : Bool :=
  let n := c.toNat
  (decide (9 ≤ n) && decide (n ≤ 13)) || n == 32 || n == 160 || n == 5760 ||
  (decide (8192 ≤ n) && decide (n ≤ 8202)) || n == 8232 || n == 8233 ||
  n == 8239 || n == 8287 || n == 12288 || n == 65279

/-- A single or double quote, the class `['"]`. -/
def isQuoteChar (c : Char) : Bool :=
  c == '"' || c == Char.ofNat 39

/-- Number of leading characters of `l` satisfying `p`. -/
def countLeading (p : Char → Bool) : List Char → Nat
  | [] => 0
  | c :: rest => if p c then countLeading p rest + 1 else 0

/-- JavaScript `text.slice(s, e)` for `0 ≤ s ≤ e` (clamps to the length). -/
def jsSlice (cs : List Char) (s e : Nat) : List Char :=
  (cs.take e).drop s

/-- JavaScript `String.prototype.trim`. -/
def jsTrim (cs : List Char) : List Char :=
  ((cs.dropWhile isJsWs).reverse.dropWhile isJsWs).reverse

/-! ## `getWordAt`, exec-loop version

```js
function getWordAt(text: string, pos: number): string | null {
  const regex = /[a-zA-Z_][a-zA-Z0-9_]*/g;
  let match: RegExpExecArray | null;
  while ((match = regex.exec(text))) {
    const start = match.index;
    const end = start + match[0].length;
    if (pos >= start && pos <= end) { return match[0]; }
  }
  return null;
}
```

`regex.exec` finds the leftmost position `i ≥ lastIndex` whose character is
in `[a-zA-Z_]` and greedily extends over `[a-zA-Z0-9_]`; `lastIndex` then
moves to the end of the match.  The fuel `cs.length + 1` is enough because
every loop step advances the scan position. -/

def scanWords (cs : List Char) (pos : Nat) : Nat → Nat → Option (List Char)
  | 0, _ => none
  | fuel + 1, i =>
    match cs[i]? with
    | none => none
    | some c =>
      if isIdentStartChar c then
        let e := i + countLeading isWordChar (cs.drop i)
        if i ≤ pos ∧ pos ≤ e then some (jsSlice cs i e)
        else scanWords cs pos fuel e
      else scanWords cs pos fuel (i + 1)

/-- The first (leftmost) regex word match whose span contains `pos`. -/
def getWordAtScan (cs : List Char) (pos : Nat) : Option (List Char) :=
  scanWords cs pos (cs.length + 1) 0

/-! ## `getWordAt`, expand-outwards version (lines 254–296)

The JS tests read `lineText[start - 1]` and `lineText[start]`, which is
`undefined` out of range; `/[A-Za-z0-9_]/.test(undefined)` is `true`. -/

/-- `/[A-Za-z0-9_]/.test(lineText[i])` with the `undefined` quirk. -/
def testWordAt (cs : List Char) (i : Nat) : Bool :=
  match cs[i]? with
  | some c => isWordChar c
  | none => true

/-- `while (start > 0 && /[A-Za-z0-9_]/.test(lineText[start - 1])) start--`. -/
def expandLeft (cs : List Char) : Nat → Nat
  | 0 => 0
  | k + 1 => if testWordAt cs k then expandLeft cs k else k + 1

/-- `while (end < lineText.length && /[A-Za-z0-9_]/.test(lineText[end])) end++`. -/
def expandRight (cs : List Char) (e : Nat) : Nat :=
  e + countLeading isWordChar (cs.drop e)

/-- Expansion and the final `word && word.length > 0 ? word : null`. -/
def expandFrom (cs : List Char) (s e : Nat) : Option (List Char) :=
  let s' := expandLeft cs s
  let e' := expandRight cs e
  let w := jsSlice cs s' e'
  if w.isEmpty then none else some w

def getWordAtExpand (cs : List Char) (pos : Nat) : Option (List Char) :=
  if pos > 0 && !(testWordAt cs (pos - 1)) then
    if !(testWordAt cs pos) then none
    else expandFrom cs pos pos
  else if pos > 0 && !(testWordAt cs pos) then
    if pos > 0 && testWordAt cs (pos - 1) then expandFrom cs (pos - 1) (pos - 1)
    else none
  else expandFrom cs pos pos

/-! ## `getExpressionBeforeDot` (lines 979–985)

```js
const before = line.slice(0, cursor);
const match = before.match(/([a-zA-Z0-9_\.\)\(\[\]]+)\.$/);
return match ? match[1] : null;
```

A match must be a suffix (the `$` anchor): the final character must be `.`
and the capture is the maximal run of class characters just before it
(nonempty by `+`; the class itself contains `.`). -/

/-- Character class `[a-zA-Z0-9_\.\)\(\[\]]`. -/
def isExprChar (c : Char) : Bool :=
  isWordChar c || c == '.' || c == '(' || c == ')' || c == '[' || c == ']'

def getExpressionBeforeDot (line : List Char) (cursor : Nat) : Option (List Char) :=
  let before := line.take cursor
  match before.reverse with
  | c :: rest =>
    if c = '.' then
      let runRev := rest.takeWhile isExprChar
      if runRev.isEmpty then none else some runRev.reverse
    else none
  | [] => none

-- Quick sanity checks of the embedding on concrete inputs.
example : getWordAtScan "hi there".toList 1 = some "hi".toList := by decide
example : getWordAtScan "hi there".toList 2 = some "hi".toList := by decide
example : getWordAtExpand "hi there".toList 4 = some "there".toList := by decide
example : getWordAtExpand "hi there".toList 1 = some "hi".toList := by decide
example : getWordAtExpand "ab".toList 7 = some "ab".toList := by decide
example : getExpressionBeforeDot "foo.bar.".toList 8 = some "foo.bar".toList := by decide
example : getExpressionBeforeDot "foo.bar.ba".toList 10 = none := by decide

/-! ## `getDefinitionContext` (lines 444–497)

Include detection runs
`/\{\%\s*include\s*['"]([^'"]+)['"]\s*\%\}/g` as an exec loop over the
line: the leftmost match at or after `lastIndex` is found, the cursor is
tested against the quoted-filename span (`filenameStartCol`/`EndCol`
computed via `indexOf`, which lands on the character after the opening
quote because the filename contains no quote), and on failure the loop
resumes at the end of the match.  If no span contains the cursor, the text
before the cursor is matched against `/([A-Za-z_][A-Za-z0-9_]*)\s*\($/`
(macro-call detection) and the whole document is scanned with
`/\{\%\s*from\s*['"]([^'"]+)['"]\s*import\s*([A-Za-z0-9_,\s]+)\s*\%\}/g`
for the import list containing the macro name. -/

/-- `lit` occurs literally at index `i`. -/
def litAt (cs : List Char) (i : Nat) (lit : List Char) : Bool :=
  lit.isPrefixOf (cs.drop i)

structure IncludeMatch where
  fnameStart : Nat
  fnameEnd : Nat
  fname : List Char
  matchEnd : Nat
deriving DecidableEq

/-- Attempt the include regex at start position `i` (deterministic: every
class in the pattern is disjoint from its follow set). -/
def matchIncludeAt (cs : List Char) (i : Nat) : Option IncludeMatch :=
  if cs[i]? = some '{' then
    if cs[i+1]? = some '%' then
      let j := i + 2 + countLeading isJsWs (cs.drop (i+2))
      if litAt cs j "include".toList then
        let k := j + 7 + countLeading isJsWs (cs.drop (j+7))
        match cs[k]? with
        | some q1 =>
          if isQuoteChar q1 then
            let f := k + 1
            let r := countLeading (fun c => !(isQuoteChar c)) (cs.drop f)
            if r = 0 then none
            else
              let fe := f + r
              match cs[fe]? with
              | some q2 =>
                if isQuoteChar q2 then
                  let t := fe + 1 + countLeading isJsWs (cs.drop (fe+1))
                  if cs[t]? = some '%' && cs[t+1]? = some '}' then
                    some ⟨f, fe, jsSlice cs f fe, t + 2⟩
                  else none
                else none
              | none => none
          else none
        | none => none
      else none
    else none
  else none

/-- Leftmost include match starting at or after `i` (the regex engine
advances the start by one after each failed attempt). -/
def findIncludeFrom (cs : List Char) : Nat → Nat → Option IncludeMatch
  | 0, _ => none
  | fuel + 1, i =>
    match matchIncludeAt cs i with
    | some m => some m
    | none => if i < cs.length then findIncludeFrom cs fuel (i + 1) else none

/-- The exec loop of the include detection: return the filename of the
first match whose quoted span contains `pos`, resuming after each match. -/
def includeLoop (cs : List Char) (pos : Nat) : Nat → Nat → Option (List Char)
  | 0, _ => none
  | fuel + 1, i =>
    match findIncludeFrom cs (cs.length + 1) i with
    | none => none
    | some m =>
      if m.fnameStart ≤ pos ∧ pos ≤ m.fnameEnd then some m.fname
      else includeLoop cs pos fuel m.matchEnd

/-- All include matches of the line, in left-to-right order. -/
def includeMatchesFrom (cs : List Char) : Nat → Nat → List IncludeMatch
  | 0, _ => []
  | fuel + 1, i =>
    match findIncludeFrom cs (cs.length + 1) i with
    | none => []
    | some m => m :: includeMatchesFrom cs fuel m.matchEnd

def includeMatches (cs : List Char) : List IncludeMatch :=
  includeMatchesFrom cs (cs.length + 1) 0

/-- First suffix starting with an identifier-start character: the capture
of the leftmost match of `([A-Za-z_][A-Za-z0-9_]*)\s*\($` within the
trailing word-character run. -/
def firstIdentSuffix : List Char → Option (List Char)
  | [] => none
  | c :: rest => if isIdentStartChar c then some (c :: rest) else firstIdentSuffix rest

/-- `before.match(/([A-Za-z_][A-Za-z0-9_]*)\s*\($/)`: the text must end
with `(`, preceded by optional whitespace, preceded by a word run; the
capture starts at the leftmost identifier-start character of that run. -/
def callNameBefore (before : List Char) : Option (List Char) :=
  match before.reverse with
  | c :: rest =>
    if c = '(' then
      firstIdentSuffix ((rest.dropWhile isJsWs).takeWhile isWordChar).reverse
    else none
  | [] => none

/-- Character class `[A-Za-z0-9_,\s]` of the import-names capture. -/
def isImportNameChar (c : Char) : Bool :=
  isWordChar c || c == ',' || isJsWs c

/-- JavaScript `String.prototype.split(',')`. -/
def splitOnComma : List Char → List (List Char)
  | [] => [[]]
  | c :: rest =>
    if c = ',' then [] :: splitOnComma rest
    else
      match splitOnComma rest with
      | l :: ls => (c :: l) :: ls
      | [] => [[c]]

structure ImportMatch where
  path : List Char
  names : List (List Char)
  matchEnd : Nat
deriving DecidableEq

/-- Attempt the from-import regex at start position `i`.  The capture
`([A-Za-z0-9_,\s]+)` is greedy and its class contains `\s`, so the
attempt succeeds exactly when the maximal class run after `import` is
nonempty (possibly after the engine hands one trailing space of `\s*`
back to the capture) and is immediately followed by `%}`. -/
def matchImportAt (cs : List Char) (i : Nat) : Option ImportMatch :=
  if cs[i]? = some '{' then
    if cs[i+1]? = some '%' then
      let j := i + 2 + countLeading isJsWs (cs.drop (i+2))
      if litAt cs j "from".toList then
        let k := j + 4 + countLeading isJsWs (cs.drop (j+4))
        match cs[k]? with
        | some q1 =>
          if isQuoteChar q1 then
            let f := k + 1
            let r := countLeading (fun c => !(isQuoteChar c)) (cs.drop f)
            if r = 0 then none
            else
              let fe := f + r
              match cs[fe]? with
              | some q2 =>
                if isQuoteChar q2 then
                  let t := fe + 1 + countLeading isJsWs (cs.drop (fe+1))
                  if litAt cs t "import".toList then
                    let u := t + 6 + countLeading isJsWs (cs.drop (t+6))
                    let w := u + countLeading isImportNameChar (cs.drop u)
                    let capture : List Char :=
                      if u < w then jsSlice cs u w
                      else if t + 6 < u then jsSlice cs (u-1) u
                      else []
                    if capture.isEmpty then none
                    else if cs[w]? = some '%' && cs[w+1]? = some '}' then
                      some ⟨jsSlice cs f fe, (splitOnComma capture).map jsTrim, w + 2⟩
                    else none
                  else none
                else none
              | none => none
          else none
        | none => none
      else none
    else none
  else none

/-- Leftmost import match starting at or after `i`. -/
def findImportFrom (cs : List Char) : Nat → Nat → Option ImportMatch
  | 0, _ => none
  | fuel + 1, i =>
    match matchImportAt cs i with
    | some m => some m
    | none => if i < cs.length then findImportFrom cs fuel (i + 1) else none

/-- Exec loop of the import scan: source template of the first import
whose (trimmed) name list contains `name`. -/
def importSearch (cs name : List Char) : Nat → Nat → Option (List Char)
  | 0, _ => none
  | fuel + 1, i =>
    match findImportFrom cs (cs.length + 1) i with
    | none => none
    | some m =>
      if m.names.contains name then some m.path
      else importSearch cs name fuel m.matchEnd

/-- The source's `{ type: 'macro_call'; name; sourceTemplate? }` and
`{ type: 'include'; target }` variants (`mCall` is `macro_call`). -/
inductive DefinitionContext where
  | mCall (name : List Char) (sourceTemplate : Option (List Char))
  | includeTgt (target : List Char)
deriving DecidableEq

/-- `doc.getText()` for a document modelled as its list of lines. -/
def docFullText (doc : List (List Char)) : List Char :=
  List.intercalate ['\n'] doc

def getDefinitionContext (doc : List (List Char)) (line char : Nat) :
    Option DefinitionContext :=
  let lineText := doc.getD line []
  match includeLoop lineText char (lineText.length + 1) 0 with
  | some target => some (.includeTgt target)
  | none =>
    match callNameBefore (lineText.take char) with
    | some name =>
      let textAll := docFullText doc
      some (.mCall name (importSearch textAll name (textAll.length + 1) 0))
    | none => none

def includeLineEx : List Char := "\x7b% include \"partials/header.jinja\" %\x7d".toList
/-- The example import line, as an explicit character list (see
`importLineEx_spelling` for its spelling). -/
def importLineEx : List Char :=
  ['{','%',' ','f','r','o','m',' ','"','m','a','c','r','o','s','.','j','i','n','j','a','"',
   ' ','i','m','p','o','r','t',' ','g','r','e','e','t',',',' ','f','a','r','e','w','e','l','l',
   ' ','%','}']

example : getDefinitionContext [includeLineEx] 0 15 =
    some (.includeTgt "partials/header.jinja".toList) := by decide
example : getDefinitionContext [includeLineEx] 0 5 = none := by decide
example : getDefinitionContext [importLineEx, "greet(".toList] 1 6 =
    some (.mCall "greet".toList (some "macros.jinja".toList)) := by decide
example : getDefinitionContext [importLineEx, "shout(".toList] 1 6 =
    some (.mCall "shout".toList none) := by decide

/-! ## `parseStub` (lines 39–52, identical regex in `parseStubFile`)

```js
for (const line of stubContent.split('\n')) {
  const match = line.match(/^([a-zA-Z_][a-zA-Z0-9_]*)\s*:\s*([^\#]+?)(?:\s*#\s*(.*))?$/);
  if (match) { result[match[1]] = { type: match[2].trim(), doc: match[3]?.trim() }; }
}
```

The anchored regex is resolved deterministically: the identifier capture is
the maximal word run from column 0 (which must start the line), `\s*:`
requires the first non-space character after it to be `:`, and the lazy
`([^\#]+?)` together with the greedy `\s*` before it and the optional
`(?:\s*#\s*(.*))?` tail resolves to: the shortest nonempty `#`-free chunk
starting at the first non-space character whose remainder is either empty
or whitespace followed by `#`.  When that first non-space character is `#`
itself (or the rest is all whitespace), the engine backtracks the leading
`\s*` by one and the capture becomes a single space.

JavaScript `.` does not match a line terminator (`\n`, `\r`, U+2028,
U+2029) and `$` (no `m` flag) matches only at the true end of the input,
while the negated class `[^#]` and `\s` do match line terminators.  Every
attempt routes the optional tail through the first `#` of the rest (the
lazy capture cannot cross it, and with a `#` present the tail-less
alternative can never reach `$`), so when the text after that `#` — less
the greedy `\s*` run — still contains a line terminator, `(.*)` cannot
reach the end and the whole line fails to match: a CRLF line such as
`x: A # d\r` contributes no entry. -/

/-- JavaScript `content.split('\n')`. -/
def splitLines : List Char → List (List Char)
  | [] => [[]]
  | c :: rest =>
    if c = '\n' then [] :: splitLines rest
    else
      match splitLines rest with
      | l :: ls => (c :: l) :: ls
      | [] => [[c]]

/-- A JavaScript line terminator: the characters `.` does not match. -/
def isLineTerm (c : Char) : Bool :=
  c == '\n' || c == '\r' || c.toNat == 8232 || c.toNat == 8233

/-- Index of the first `#`, if any. -/
def idxOfHash : List Char → Option Nat
  | [] => none
  | c :: rest => if c = '#' then some 0 else (idxOfHash rest).map (· + 1)

/-- Resolve `\s*([^\#]+?)(?:\s*#\s*(.*))?$` on the text after the colon:
returns the raw type capture and the raw documentation capture. -/
def matchStubRest (R : List Char) : Option (List Char × Option (List Char)) :=
  let p := countLeading isJsWs R
  match R.drop p with
  | [] =>
    if p = 0 then none
    else some ([R.getD (p - 1) ' '], none)
  | c :: _ =>
    if c = '#' then
      if p = 0 then none
      else
        let doc := (R.drop (p + 1)).dropWhile isJsWs
        if doc.any isLineTerm then none
        else some ([R.getD (p - 1) ' '], some doc)
    else
      let rest := R.drop p
      match idxOfHash rest with
      | none => some (rest, none)
      | some h =>
        let q := ((rest.take h).reverse.dropWhile isJsWs).length
        let doc := (rest.drop (h + 1)).dropWhile isJsWs
        if doc.any isLineTerm then none
        else some (rest.take (max 1 q), some doc)

/-- Match one stub line; captures are raw (untrimmed). -/
def matchStubLine (cs : List Char) : Option (List Char × List Char × Option (List Char)) :=
  match cs with
  | [] => none
  | c :: _ =>
    if isIdentStartChar c then
      let n := countLeading isWordChar cs
      let j := n + countLeading isJsWs (cs.drop n)
      if cs[j]? = some ':' then
        (matchStubRest (cs.drop (j + 1))).map (fun td => (cs.take n, td.1, td.2))
      else none
    else none

structure StubVal where
  typ : List Char
  doc : Option (List Char)
deriving DecidableEq

/-- JS object assignment `result[k] = v`: overwrite in place or append. -/
def objSet (m : List (List Char × StubVal)) (k : List Char) (v : StubVal) :
    List (List Char × StubVal) :=
  match m with
  | [] => [(k, v)]
  | (k', v') :: rest => if k' = k then (k, v) :: rest else (k', v') :: objSet rest k v

def parseStub (content : List Char) : List (List Char × StubVal) :=
  (splitLines content).foldl
    (fun acc line =>
      match matchStubLine line with
      | some (n, t, d) => objSet acc n ⟨jsTrim t, d.map jsTrim⟩
      | none => acc) []

def stubLookup (m : List (List Char × StubVal)) (k : List Char) : Option StubVal :=
  (m.find? (fun e => decide (e.1 = k))).map (·.2)

example : stubLookup (parseStub "user: User  # The current user".toList) "user".toList =
    some ⟨"User".toList, some "The current user".toList⟩ := by decide
example : stubLookup (parseStub "x:   #d".toList) "x".toList =
    some ⟨[], some "d".toList⟩ := by decide
example : stubLookup (parseStub "x:# d".toList) "x".toList = none := by decide
-- A line terminator blocks `(.*)` from reaching `$`: a CRLF line with a
-- documentation comment fails the regex entirely, while one without a
-- comment still matches (the `[^#]` capture does span the `\r`, which the
-- final trim removes).
example : matchStubLine "x: A # d\r".toList = none := by decide
example : stubLookup (parseStub "x: A # d\r\ny: B\r".toList) "x".toList = none := by decide
example : stubLookup (parseStub "x: A # d\r\ny: B\r".toList) "y".toList =
    some ⟨"B".toList, none⟩ := by decide
example : stubLookup (parseStub "x: A #\rd".toList) "x".toList =
    some ⟨"A".toList, some "d".toList⟩ := by decide
example : stubLookup (parseStub "items: list[Item]\nclass Item:\n    name: str".toList)
    "items".toList = some ⟨"list[Item]".toList, none⟩ := by decide
example : stubLookup (parseStub "items: list[Item]\nclass Item:\n    name: str".toList)
    "name".toList = none := by decide

/-! ## Completion filter and sort (lines 389–408)

```js
const filtered = partial ? items.filter(item => item.name.startsWith(partial)) : items;
const sorted = filtered.slice().sort((a, b) => {
  const aPrivate = a.name.startsWith('_');
  const bPrivate = b.name.startsWith('_');
  if (aPrivate !== bPrivate) return aPrivate ? 1 : -1;
  return a.name.localeCompare(b.name);
});
```

`localeCompare` is modelled as an abstract integer comparison `lc`;
`Array.prototype.sort` (stable since ES2019, and unique on a consistent
comparator) is modelled as stable insertion sort on `comparator ≤ 0`. -/

structure BackendItem where
  name : List Char
  typ : Option (List Char)
  docstring : Option (List Char)
deriving DecidableEq

/-- `item.name.startsWith('_')`. -/
def isPrivateItem (it : BackendItem) : Bool :=
  decide (it.name.head? = some '_')

/-- The source's sort comparator. -/
def jsSortComparator (lc : List Char → List Char → Int) (a b : BackendItem) : Int :=
  if isPrivateItem a ≠ isPrivateItem b then (if isPrivateItem a then 1 else -1)
  else lc a.name b.name

def completionPipeline (lc : List Char → List Char → Int) (frag : List Char)
    (items : List BackendItem) : List BackendItem :=
  let filtered := if frag.isEmpty then items
    else items.filter (fun it => frag.isPrefixOf it.name)
  List.insertionSort (fun a b => jsSortComparator lc a b ≤ 0) filtered

example :
    completionPipeline (fun _ _ => 0) "b".toList
      [⟨"_b1".toList, none, none⟩, ⟨"ba".toList, none, none⟩,
       ⟨"xa".toList, none, none⟩, ⟨"bc".toList, none, none⟩] =
      [⟨"ba".toList, none, none⟩, ⟨"bc".toList, none, none⟩] := by decide

/-! ## Claim theorems -/

/-- Whether a resolution result is the include variant. -/
def isIncludeResult : Option DefinitionContext → Bool
  | some (.includeTgt _) => true
  | _ => false

/-- C8: on an empty line with the cursor at character 0, `getWordAt` (both
versions), `getExpressionBeforeDot` and `getDefinitionContext` all return
null; the embedding is total, so no out-of-bounds access occurs. -/
theorem emptyLine_position_zero_all_none :
    getWordAtScan [] 0 = none ∧ getWordAtExpand [] 0 = none ∧
    getExpressionBeforeDot [] 0 = none ∧ getDefinitionContext [[]] 0 0 = none := by
  decide

/-- C3 counterexample: on the line `foo.bar.ba` with the cursor at the end
of the line (column 10), the in-repo extractor `getExpressionBeforeDot`
returns null — not base `foo.bar` with partial-prefix `ba` — because the
text before the cursor does not end with a dot. -/
theorem getExpressionBeforeDot_foo_bar_ba_is_none :
    getExpressionBeforeDot "foo.bar.ba".toList 10 = none := by decide

/-- C3 amended: on `foo.bar.ba` with the cursor at the end of the line the
in-repo extractor returns null; it produces a base expression only when
the text before the cursor ends with a dot, e.g. on `foo.bar.` with the
cursor at the end it returns base `foo.bar` (and no partial component
exists in this implementation). -/
theorem getExpressionBeforeDot_amended :
    getExpressionBeforeDot "foo.bar.ba".toList 10 = none ∧
    getExpressionBeforeDot "foo.bar.".toList 8 = some "foo.bar".toList := by decide

/-- C2: on the line `{% include "partials/header.jinja" %}` the resolver
returns the include variant with target `partials/header.jinja` exactly
for the cursor columns inside the quoted filename span (columns 12–33);
for every other column of the line (e.g. on the `include` keyword) it does
not return the include variant. -/
theorem includeLine_cursor_resolution :
    ∀ c : Nat, c ≤ 37 →
      ((12 ≤ c ∧ c ≤ 33) →
        getDefinitionContext [includeLineEx] 0 c =
          some (.includeTgt "partials/header.jinja".toList)) ∧
      (¬(12 ≤ c ∧ c ≤ 33) →
        isIncludeResult (getDefinitionContext [includeLineEx] 0 c) = false) := by
  decide

theorem includeLine_cursor_resolution_witness :
    getDefinitionContext [includeLineEx] 0 20 =
      some (.includeTgt "partials/header.jinja".toList) ∧
    isIncludeResult (getDefinitionContext [includeLineEx] 0 5) = false :=
  ⟨(includeLine_cursor_resolution 20 (by decide)).1 (by decide),
   (includeLine_cursor_resolution 5 (by decide)).2 (by decide)⟩

/-- C6: each resolution function is a pure function of the document
snapshot and position: on identical snapshots the results coincide, and
repeated calls (the snapshot is never mutated — the source builds its
regexes locally and only reads the document) give identical results. -/
theorem resolution_functions_deterministic (cs₁ cs₂ : List Char) (p : Nat)
    (d₁ d₂ : List (List Char)) (l ch : Nat) (ht : cs₁ = cs₂) (hd : d₁ = d₂) :
    getWordAtScan cs₁ p = getWordAtScan cs₂ p ∧
    getWordAtExpand cs₁ p = getWordAtExpand cs₂ p ∧
    getExpressionBeforeDot cs₁ p = getExpressionBeforeDot cs₂ p ∧
    getDefinitionContext d₁ l ch = getDefinitionContext d₂ l ch := by
  subst ht; subst hd; exact ⟨rfl, rfl, rfl, rfl⟩

theorem resolution_functions_deterministic_witness :
    getWordAtScan "x y".toList 1 = getWordAtScan "x y".toList 1 ∧
    getWordAtExpand "x y".toList 1 = getWordAtExpand "x y".toList 1 ∧
    getExpressionBeforeDot "x y".toList 1 = getExpressionBeforeDot "x y".toList 1 ∧
    getDefinitionContext ["x y".toList] 0 1 = getDefinitionContext ["x y".toList] 0 1 :=
  resolution_functions_deterministic "x y".toList "x y".toList 1
    ["x y".toList] ["x y".toList] 0 1 rfl rfl

/-! ### Run lemmas for `countLeading` -/

/-- A character position observed through `getD` with default `' '`. -/
def charAtD (cs : List Char) (k : Nat) : Char := cs.getD k ' '

theorem charAtD_eq_getElem {cs : List Char} {k : Nat} (h : k < cs.length) :
    charAtD cs k = cs[k] := by
  simp [charAtD, List.getD_eq_getElem?_getD, List.getElem?_eq_getElem h]

theorem testWordAt_of_lt {cs : List Char} {k : Nat} (h : k < cs.length) :
    testWordAt cs k = isWordChar (charAtD cs k) := by
  simp [testWordAt, List.getElem?_eq_getElem h, charAtD_eq_getElem h]

/-- The run length is exactly `e - i` when every position in `[i, e)`
satisfies `p` and `e` is the length of the list or fails `p`. -/
theorem countLeading_drop_eq {p : Char → Bool} {cs : List Char} {e : Nat}
    (hel : e ≤ cs.length)
    (hbound : e = cs.length ∨ p (charAtD cs e) = false) :
    ∀ d i, i + d = e →
      (∀ k, k < e → i ≤ k → p (charAtD cs k) = true) →
      countLeading p (cs.drop i) = d := by
  intro d
  induction d with
  | zero =>
    intro i hie _
    have hie' : i = e := by omega
    subst hie'
    rcases Nat.lt_or_ge i cs.length with hi | hi
    · rcases hbound with h | h
      · omega
      · rw [List.drop_eq_getElem_cons hi]
        have hp : p cs[i] = false := by rw [← charAtD_eq_getElem hi]; exact h
        simp [countLeading, hp]
    · rw [List.drop_eq_nil_of_le hi]; rfl
  | succ d ih =>
    intro i hie hall
    have hi : i < cs.length := by omega
    rw [List.drop_eq_getElem_cons hi]
    have hp : p cs[i] = true := by
      rw [← charAtD_eq_getElem hi]; exact hall i (by omega) (Nat.le_refl i)
    simp only [countLeading, hp, if_pos]
    have := ih (i + 1) (by omega) (fun k hk hik => hall k hk (by omega))
    omega

/-- Every position counted by `countLeading` satisfies `p`. -/
theorem countLeading_all {p : Char → Bool} :
    ∀ (l : List Char) (m : Nat), m < countLeading p l → p (l.getD m ' ') = true := by
  intro l
  induction l with
  | nil => intro m h; simp [countLeading] at h
  | cons c rest ih =>
    intro m h
    by_cases hc : p c = true
    · cases m with
      | zero => simpa [List.getD] using hc
      | succ m =>
        simp only [countLeading, hc, if_pos] at h
        simpa [List.getD] using ih m (by omega)
    · simp [countLeading, hc] at h

/-- A failing position bounds the run length. -/
theorem countLeading_le_of_false {p : Char → Bool} {l : List Char} {k : Nat}
    (hf : p (l.getD k ' ') = false) : countLeading p l ≤ k := by
  by_contra h
  have ht := countLeading_all (p := p) l k (by omega)
  rw [hf] at ht
  exact absurd ht (by decide)

/-- A maximal word-character run `[s, e)` that starts like an identifier:
the character span of an identifier in the sense of the word regex. -/
def isIdentSpan (cs : List Char) (s e : Nat) : Prop :=
  s < e ∧ e ≤ cs.length ∧ isIdentStartChar (charAtD cs s) = true ∧
  (∀ k, k < e → s ≤ k → isWordChar (charAtD cs k) = true) ∧
  (s = 0 ∨ isWordChar (charAtD cs (s - 1)) = false) ∧
  (e = cs.length ∨ isWordChar (charAtD cs e) = false)

instance (cs : List Char) (s e : Nat) : Decidable (isIdentSpan cs s e) := by
  unfold isIdentSpan; infer_instance

theorem expandLeft_reaches {cs : List Char} {s : Nat}
    (hb : s = 0 ∨ isWordChar (charAtD cs (s - 1)) = false) :
    ∀ p, s ≤ p → p ≤ cs.length →
      (∀ k, k < p → s ≤ k → isWordChar (charAtD cs k) = true) →
      expandLeft cs p = s := by
  intro p
  induction p with
  | zero =>
    intro hsp _ _
    rw [Nat.le_zero.mp hsp]
    rfl
  | succ k ih =>
    intro hsp hlen hall
    by_cases hks : s = k + 1
    · have hk : k < cs.length := by omega
      have hw : isWordChar (charAtD cs k) = false := by
        rcases hb with h | h
        · omega
        · simpa [hks] using h
      simp only [expandLeft, testWordAt_of_lt hk, hw, if_neg, Bool.false_eq_true,
        not_false_iff]
      omega
    · have hsk : s ≤ k := by omega
      have hk : k < cs.length := by omega
      have hw : isWordChar (charAtD cs k) = true := hall k (by omega) hsk
      simp only [expandLeft, testWordAt_of_lt hk, hw, if_pos]
      exact ih hsk (by omega) (fun m hm hsm => hall m (by omega) hsm)

theorem jsSlice_length {cs : List Char} {s e : Nat} (he : e ≤ cs.length) :
    (jsSlice cs s e).length = e - s := by
  simp [jsSlice, List.length_drop, List.length_take]
  omega

/-- Inside an identifier span, the expand-outwards `getWordAt` returns
exactly the span. -/
theorem getWordAtExpand_inside {cs : List Char} {s e p : Nat}
    (hspan : isIdentSpan cs s e) (hsp : s < p) (hpe : p < e) :
    getWordAtExpand cs p = some (jsSlice cs s e) := by
  obtain ⟨hse, hel, hstart, hall, hbl, hbr⟩ := hspan
  have hp0 : 0 < p := by omega
  have hplen : p < cs.length := by omega
  have h1 : testWordAt cs (p - 1) = true := by
    rw [testWordAt_of_lt (by omega)]
    exact hall (p - 1) (by omega) (by omega)
  have h2 : testWordAt cs p = true := by
    rw [testWordAt_of_lt hplen]
    exact hall p hpe (by omega)
  have hleft : expandLeft cs p = s :=
    expandLeft_reaches hbl p (by omega) (by omega)
      (fun k hk hsk => hall k (by omega) hsk)
  have hright : expandRight cs p = e := by
    unfold expandRight
    have := @countLeading_drop_eq isWordChar cs e hel hbr (e - p) p
      (by omega) (fun k hk hpk => hall k hk (by omega))
    omega
  have hne : (jsSlice cs s e).isEmpty = false := by
    have := @jsSlice_length cs s e hel
    rcases h : (jsSlice cs s e).isEmpty
    · rfl
    · rw [List.isEmpty_iff_length_eq_zero] at h; omega
  simp [getWordAtExpand, h1, h2, hp0, expandFrom, hleft, hright, hne]

/-- Outside every identifier span — on a character that is not a word
character and whose left neighbour is not one either — the
expand-outwards `getWordAt` returns null. -/
theorem getWordAtExpand_outside {cs : List Char} {q : Nat}
    (hq : q < cs.length) (hw : isWordChar (charAtD cs q) = false)
    (hadj : q = 0 ∨ isWordChar (charAtD cs (q - 1)) = false) :
    getWordAtExpand cs q = none := by
  cases q with
  | zero =>
    have hz : testWordAt cs 0 = false := by rw [testWordAt_of_lt hq]; exact hw
    have hcl : countLeading isWordChar cs = 0 := by
      cases cs with
      | nil => rfl
      | cons c rest =>
        have : isWordChar c = false := by simpa [charAtD, List.getD] using hw
        simp [countLeading, this]
    simp [getWordAtExpand, expandFrom, expandLeft, expandRight, hcl, jsSlice]
  | succ q' =>
    have hadj' : isWordChar (charAtD cs q') = false := by
      rcases hadj with h | h
      · omega
      · simpa using h
    have h1 : testWordAt cs q' = false := by
      rw [testWordAt_of_lt (by omega)]; exact hadj'
    have h2 : testWordAt cs (q' + 1) = false := by
      rw [testWordAt_of_lt hq]; exact hw
    simp [getWordAtExpand, h1, h2]

theorem charAtD_drop (cs : List Char) (i m : Nat) :
    (cs.drop i).getD m ' ' = charAtD cs (i + m) := by
  simp [charAtD, List.getD_eq_getElem?_getD, List.getElem?_drop]

theorem isWordChar_of_identStart {c : Char} (h : isIdentStartChar c = true) :
    isWordChar c = true := by
  simp only [isIdentStartChar, Bool.or_eq_true, Bool.and_eq_true, decide_eq_true_eq,
    beq_iff_eq] at h
  simp only [isWordChar, Bool.or_eq_true, Bool.and_eq_true, decide_eq_true_eq, beq_iff_eq]
  tauto

/-- The exec loop reaches the identifier span containing the position and
returns exactly that span. -/
theorem scanWords_reach {cs : List Char} {s e pos : Nat}
    (hspan : isIdentSpan cs s e) (hsp : s < pos) (hpe : pos < e) :
    ∀ fuel i, i ≤ s → s - i < fuel → scanWords cs pos fuel i = some (jsSlice cs s e) := by
  obtain ⟨hse, hel, hstart, hall, hbl, hbr⟩ := hspan
  intro fuel
  induction fuel with
  | zero => intro i _ h; omega
  | succ fuel ih =>
    intro i his hif
    have hilen : i < cs.length := by omega
    by_cases heq : i = s
    · subst heq
      have hid : isIdentStartChar cs[i] = true := by
        rw [← charAtD_eq_getElem hilen]; exact hstart
      have hrun : countLeading isWordChar (cs.drop i) = e - i :=
        countLeading_drop_eq hel hbr (e - i) i (by omega) (fun k hk hik => hall k hk hik)
      simp only [scanWords, List.getElem?_eq_getElem hilen, hid, if_pos, hrun]
      rw [if_pos ⟨by omega, by omega⟩, show i + (e - i) = e by omega]
    · have his' : i < s := by omega
      have hs0 : 0 < s := by omega
      have hwb : isWordChar (charAtD cs (s - 1)) = false := by
        rcases hbl with h | h
        · omega
        · exact h
      by_cases hid : isIdentStartChar cs[i] = true
      · have hL : countLeading isWordChar (cs.drop i) ≤ s - 1 - i := by
          apply countLeading_le_of_false
          rw [charAtD_drop, show i + (s - 1 - i) = s - 1 by omega]
          exact hwb
        have hL1 : 1 ≤ countLeading isWordChar (cs.drop i) := by
          rw [List.drop_eq_getElem_cons hilen]
          simp [countLeading, isWordChar_of_identStart hid]
        simp only [scanWords, List.getElem?_eq_getElem hilen, hid, if_pos]
        rw [if_neg (by omega)]
        exact ih (i + countLeading isWordChar (cs.drop i)) (by omega) (by omega)
      · simp only [scanWords, List.getElem?_eq_getElem hilen, hid, Bool.false_eq_true,
          if_neg, not_false_iff]
        exact ih (i + 1) (by omega) (by omega)

/-- The exec loop never returns a word when the position sits on a
non-word character whose left neighbour is also not a word character. -/
theorem scanWords_outside {cs : List Char} {q : Nat}
    (hq : q < cs.length) (hw : isWordChar (charAtD cs q) = false)
    (hadj : q = 0 ∨ isWordChar (charAtD cs (q - 1)) = false) :
    ∀ fuel i, scanWords cs q fuel i = none := by
  intro fuel
  induction fuel with
  | zero => intro i; rfl
  | succ fuel ih =>
    intro i
    by_cases hilen : i < cs.length
    · by_cases hid : isIdentStartChar cs[i] = true
      · have hL1 : 1 ≤ countLeading isWordChar (cs.drop i) := by
          rw [List.drop_eq_getElem_cons hilen]
          simp [countLeading, isWordChar_of_identStart hid]
        have hiw : ∀ m, m < countLeading isWordChar (cs.drop i) →
            isWordChar (charAtD cs (i + m)) = true := by
          intro m hm
          have := countLeading_all (cs.drop i) m hm
          rwa [charAtD_drop] at this
        have hcond : ¬(i ≤ q ∧ q ≤ i + countLeading isWordChar (cs.drop i)) := by
          rintro ⟨h1, h2⟩
          rcases Nat.lt_or_ge q (i + countLeading isWordChar (cs.drop i)) with hlt | hge
          · have := hiw (q - i) (by omega)
            rw [show i + (q - i) = q by omega] at this
            rw [this] at hw
            exact absurd hw (by decide)
          · have hqe : q = i + countLeading isWordChar (cs.drop i) := by omega
            have hq0 : q ≠ 0 := by omega
            have hadj' : isWordChar (charAtD cs (q - 1)) = false := by
              rcases hadj with h | h
              · omega
              · exact h
            have := hiw (q - 1 - i) (by omega)
            rw [show i + (q - 1 - i) = q - 1 by omega] at this
            rw [this] at hadj'
            exact absurd hadj' (by decide)
        simp only [scanWords, List.getElem?_eq_getElem hilen, hid, if_pos]
        rw [if_neg hcond]
        exact ih _
      · simp only [scanWords, List.getElem?_eq_getElem hilen, hid, Bool.false_eq_true,
          if_neg, not_false_iff]
        exact ih _
    · simp [scanWords, List.getElem?_eq_none (by omega : cs.length ≤ i)]

/-- C1: for every line and every position strictly inside the character
span of an identifier (a maximal `[A-Za-z0-9_]` run starting with a letter
or underscore), both versions of `getWordAt` return exactly that
identifier; for every in-range position on a non-word character with no
word character immediately to its left, both return null. -/
theorem getWordAt_identifier_spec (cs : List Char) :
    (∀ s e p, isIdentSpan cs s e → s < p → p < e →
      getWordAtScan cs p = some (jsSlice cs s e) ∧
      getWordAtExpand cs p = some (jsSlice cs s e)) ∧
    (∀ q, q < cs.length → isWordChar (charAtD cs q) = false →
      (q = 0 ∨ isWordChar (charAtD cs (q - 1)) = false) →
      getWordAtScan cs q = none ∧ getWordAtExpand cs q = none) := by
  constructor
  · intro s e p hspan hsp hpe
    refine ⟨?_, getWordAtExpand_inside hspan hsp hpe⟩
    have hs : s - 0 < cs.length + 1 := by
      obtain ⟨hse, hel, -⟩ := hspan
      omega
    exact scanWords_reach hspan hsp hpe (cs.length + 1) 0 (Nat.zero_le s) hs
  · intro q hq hw hadj
    exact ⟨scanWords_outside hq hw hadj (cs.length + 1) 0,
      getWordAtExpand_outside hq hw hadj⟩

theorem getWordAt_identifier_spec_witness :
    (getWordAtScan "ab  cd".toList 1 = some (jsSlice "ab  cd".toList 0 2) ∧
      getWordAtExpand "ab  cd".toList 1 = some (jsSlice "ab  cd".toList 0 2)) ∧
    (getWordAtScan "ab  cd".toList 3 = none ∧ getWordAtExpand "ab  cd".toList 3 = none) :=
  ⟨(getWordAt_identifier_spec "ab  cd".toList).1 0 2 1 (by decide) (by decide) (by decide),
   (getWordAt_identifier_spec "ab  cd".toList).2 3 (by decide) (by decide) (by decide)⟩

/-! ### Totality and result well-formedness (C7) -/

theorem countLeading_le_length (p : Char → Bool) :
    ∀ l : List Char, countLeading p l ≤ l.length := by
  intro l
  induction l with
  | nil => simp [countLeading]
  | cons c rest ih =>
    by_cases hc : p c = true
    · simp [countLeading, hc]; omega
    · simp [countLeading, hc]

theorem jsSlice_ne_nil {cs : List Char} {a b : Nat} (hab : a < b) (hb : b ≤ cs.length) :
    jsSlice cs a b ≠ [] := by
  intro h
  have hl := @jsSlice_length cs a b hb
  rw [h] at hl
  simp at hl
  omega

theorem scanWords_ne_nil {cs : List Char} {pos : Nat} :
    ∀ fuel i w, scanWords cs pos fuel i = some w → w ≠ [] := by
  intro fuel
  induction fuel with
  | zero => intro i w h; exact Option.noConfusion h
  | succ fuel ih =>
    intro i w h
    by_cases hilen : i < cs.length
    · by_cases hid : isIdentStartChar cs[i] = true
      · simp only [scanWords, List.getElem?_eq_getElem hilen, hid, if_pos] at h
        split at h
        · have hL1 : 1 ≤ countLeading isWordChar (cs.drop i) := by
            rw [List.drop_eq_getElem_cons hilen]
            simp [countLeading, isWordChar_of_identStart hid]
          have hle : i + countLeading isWordChar (cs.drop i) ≤ cs.length := by
            have := countLeading_le_length isWordChar (cs.drop i)
            rw [List.length_drop] at this
            omega
          cases h
          exact jsSlice_ne_nil (by omega) hle
        · exact ih _ _ h
      · simp only [scanWords, List.getElem?_eq_getElem hilen, hid, Bool.false_eq_true,
          if_neg, not_false_iff] at h
        exact ih _ _ h
    · simp [scanWords, List.getElem?_eq_none (by omega : cs.length ≤ i)] at h

theorem expandFrom_ne_nil {cs : List Char} {s e : Nat} {w : List Char}
    (h : expandFrom cs s e = some w) : w ≠ [] := by
  simp only [expandFrom] at h
  split at h
  · exact Option.noConfusion h
  · cases h
    intro hnil
    rename_i hne
    rw [hnil] at hne
    exact hne List.isEmpty_nil

theorem getWordAtExpand_ne_nil {cs : List Char} {pos : Nat} {w : List Char}
    (h : getWordAtExpand cs pos = some w) : w ≠ [] := by
  unfold getWordAtExpand at h
  split at h
  · split at h
    · exact Option.noConfusion h
    · exact expandFrom_ne_nil h
  · split at h
    · split at h
      · exact expandFrom_ne_nil h
      · exact Option.noConfusion h
    · exact expandFrom_ne_nil h

theorem getExpressionBeforeDot_ne_nil {cs : List Char} {pos : Nat} {w : List Char}
    (h : getExpressionBeforeDot cs pos = some w) : w ≠ [] := by
  simp only [getExpressionBeforeDot] at h
  split at h
  · split at h
    · split at h
      · exact Option.noConfusion h
      · cases h
        rename_i hne
        rw [ne_eq, List.reverse_eq_nil_iff]
        intro hnil
        rw [hnil] at hne
        exact hne List.isEmpty_nil
    · exact Option.noConfusion h
  · exact Option.noConfusion h

theorem matchIncludeAt_fname_ne_nil {cs : List Char} {i : Nat} {m : IncludeMatch}
    (h : matchIncludeAt cs i = some m) : m.fname ≠ [] := by
  simp only [matchIncludeAt] at h
  repeat' split at h
  any_goals exact Option.noConfusion h
  injection h with h'
  subst h'
  rename_i hr q2 hfe hq2 hcond
  have hlt := (List.getElem?_eq_some.mp hfe).1
  exact jsSlice_ne_nil (by omega) (by omega)

theorem findIncludeFrom_fname_ne_nil {cs : List Char} :
    ∀ fuel i m, findIncludeFrom cs fuel i = some m → m.fname ≠ [] := by
  intro fuel
  induction fuel with
  | zero => intro i m h; exact Option.noConfusion h
  | succ fuel ih =>
    intro i m h
    unfold findIncludeFrom at h
    split at h
    · cases h
      exact matchIncludeAt_fname_ne_nil (by assumption)
    · split at h
      · exact ih _ _ h
      · exact Option.noConfusion h

theorem includeLoop_ne_nil {cs : List Char} {pos : Nat} :
    ∀ fuel i t, includeLoop cs pos fuel i = some t → t ≠ [] := by
  intro fuel
  induction fuel with
  | zero => intro i t h; exact Option.noConfusion h
  | succ fuel ih =>
    intro i t h
    unfold includeLoop at h
    split at h
    · exact Option.noConfusion h
    · split at h
      · cases h
        exact findIncludeFrom_fname_ne_nil _ _ _ (by assumption)
      · exact ih _ _ h

theorem firstIdentSuffix_ne_nil : ∀ (l : List Char) (w : List Char),
    firstIdentSuffix l = some w → w ≠ [] := by
  intro l
  induction l with
  | nil => intro w h; exact Option.noConfusion h
  | cons c rest ih =>
    intro w h
    unfold firstIdentSuffix at h
    split at h
    · cases h; simp
    · exact ih _ h

theorem callNameBefore_ne_nil {before w : List Char}
    (h : callNameBefore before = some w) : w ≠ [] := by
  unfold callNameBefore at h
  split at h
  · split at h
    · exact firstIdentSuffix_ne_nil _ _ h
    · exact Option.noConfusion h
  · exact Option.noConfusion h

/-- C7: every resolution function is total (each embedding is a Lean
function, defined on all documents and positions, in-range or not) and
absence of a match is the null result; a returned context is always
well-formed — a nonempty word, a nonempty base expression, an include
target that is a nonempty filename, or a macro call with a nonempty
name. -/
theorem resolution_total_wellformed (cs : List Char) (pos : Nat)
    (doc : List (List Char)) (line char : Nat) :
    (∀ w, getWordAtScan cs pos = some w → w ≠ []) ∧
    (∀ w, getWordAtExpand cs pos = some w → w ≠ []) ∧
    (∀ w, getExpressionBeforeDot cs pos = some w → w ≠ []) ∧
    (∀ ctx, getDefinitionContext doc line char = some ctx →
      (∃ t, ctx = .includeTgt t ∧ t ≠ []) ∨ ∃ n st, ctx = .mCall n st ∧ n ≠ []) := by
  refine ⟨fun w h => scanWords_ne_nil _ _ _ h, fun w h => getWordAtExpand_ne_nil h,
    fun w h => getExpressionBeforeDot_ne_nil h, fun ctx h => ?_⟩
  simp only [getDefinitionContext] at h
  split at h
  · cases h
    exact Or.inl ⟨_, rfl, includeLoop_ne_nil _ _ _ (by assumption)⟩
  · split at h
    · cases h
      exact Or.inr ⟨_, _, rfl, callNameBefore_ne_nil (by assumption)⟩
    · exact Option.noConfusion h

theorem resolution_total_wellformed_witness :
    "ab".toList ≠ [] ∧ "a".toList ≠ [] ∧
    ((∃ t, DefinitionContext.mCall "x".toList none = .includeTgt t ∧ t ≠ []) ∨
      ∃ n st, DefinitionContext.mCall "x".toList none = .mCall n st ∧ n ≠ []) :=
  ⟨(resolution_total_wellformed "ab".toList 1 ["x(".toList] 0 2).1 "ab".toList (by decide),
   (resolution_total_wellformed "a.".toList 2 ["x(".toList] 0 2).2.2.1 "a".toList (by decide),
   (resolution_total_wellformed "ab".toList 1 ["x(".toList] 0 2).2.2.2
     (DefinitionContext.mCall "x".toList none) (by decide)⟩

/-! ### Left-to-right first-match semantics of the include loop (C4) -/

/-- The cursor-containment test on the quoted-argument span. -/
def spanContains (pos : Nat) (m : IncludeMatch) : Bool :=
  decide (m.fnameStart ≤ pos) && decide (pos ≤ m.fnameEnd)

theorem includeLoop_eq_find {cs : List Char} {pos : Nat} :
    ∀ fuel i, includeLoop cs pos fuel i =
      ((includeMatchesFrom cs fuel i).find? (spanContains pos)).map (·.fname) := by
  intro fuel
  induction fuel with
  | zero => intro i; rfl
  | succ fuel ih =>
    intro i
    unfold includeLoop includeMatchesFrom
    cases hf : findIncludeFrom cs (cs.length + 1) i with
    | none => rfl
    | some m =>
      by_cases hc : m.fnameStart ≤ pos ∧ pos ≤ m.fnameEnd
      · have hb : spanContains pos m = true := by
          simp [spanContains, hc.1, hc.2]
        simp [hc, List.find?, hb]
      · have hb : spanContains pos m = false := by
          simp only [spanContains, Bool.and_eq_true, decide_eq_true_eq]
          rcases Decidable.not_and_iff_or_not.mp hc with h | h <;> simp [h]
        simp [hc, List.find?, hb, ih]

/-- C4: on every line, the resolver inspects the include-directive matches
in left-to-right order and returns the include variant of the first match
whose quoted-argument span contains the cursor column; when no span
contains the cursor it falls through to macro-call detection (and the
from-import scan) on the same line. -/
theorem includeResolution_first_match (doc : List (List Char)) (line char : Nat) :
    getDefinitionContext doc line char =
      match ((includeMatches (doc.getD line [])).find? (spanContains char)).map (·.fname) with
      | some target => some (.includeTgt target)
      | none =>
        match callNameBefore ((doc.getD line []).take char) with
        | some name =>
          some (.mCall name
            (importSearch (docFullText doc) name ((docFullText doc).length + 1) 0))
        | none => none := by
  simp only [getDefinitionContext, includeMatches]
  rw [includeLoop_eq_find]

/-! ### `parseStub` binds each identifier to its last matching line (C9) -/

theorem stubLookup_cons (a : List Char) (b : StubVal) (m : List (List Char × StubVal))
    (k' : List Char) :
    stubLookup ((a, b) :: m) k' = if k' = a then some b else stubLookup m k' := by
  by_cases h : k' = a
  · subst h; simp [stubLookup, List.find?]
  · simp [stubLookup, List.find?, h, Ne.symm h]

theorem stubLookup_objSet (m : List (List Char × StubVal)) (k : List Char) (v : StubVal)
    (k' : List Char) :
    stubLookup (objSet m k v) k' = if k' = k then some v else stubLookup m k' := by
  induction m with
  | nil => simp [objSet, stubLookup_cons]
  | cons e rest ih =>
    obtain ⟨k'', v''⟩ := e
    by_cases h2 : k'' = k
    · subst h2
      simp only [objSet, eq_self_iff_true, if_true]
      rw [stubLookup_cons, stubLookup_cons]
      by_cases h1 : k' = k'' <;> simp [h1]
    · simp only [objSet, if_neg h2]
      rw [stubLookup_cons, ih, stubLookup_cons]
      by_cases h1 : k' = k''
      · by_cases h0 : k' = k
        · exact absurd (h1.symm.trans h0) h2
        · simp [h1, h0, h2, Ne.symm h2]
      · by_cases h0 : k' = k
        · simp [h1, h0, h2, Ne.symm h2]
        · simp [h1, h0]

/-- One `foldl` step of `parseStub`. -/
def stubStep (acc : List (List Char × StubVal)) (line : List Char) :
    List (List Char × StubVal) :=
  match matchStubLine line with
  | some (n, t, d) => objSet acc n ⟨jsTrim t, d.map jsTrim⟩
  | none => acc

theorem parseStub_eq_foldl (content : List Char) :
    parseStub content = (splitLines content).foldl stubStep [] := rfl

/-- The trimmed stub value of a raw line match. -/
def stubEntryVal (e : List Char × List Char × Option (List Char)) : StubVal :=
  ⟨jsTrim e.2.1, e.2.2.map jsTrim⟩

theorem getLast?_eq_none_imp {α : Type} {l : List α} (h : l.getLast? = none) : l = [] := by
  cases l with
  | nil => rfl
  | cons a t => simp [List.getLast?_isSome] at h

theorem getLast?_cons_eq_of_ne {α : Type} {l : List α} {a : α} (h : l ≠ []) :
    (a :: l).getLast? = l.getLast? := by
  cases l with
  | nil => exact absurd rfl h
  | cons b t => exact List.getLast?_cons_cons

theorem stubLookup_foldl (name : List Char) :
    ∀ (lines : List (List Char)) (acc : List (List Char × StubVal)),
      stubLookup (lines.foldl stubStep acc) name =
        match ((lines.filterMap matchStubLine).filter
            (fun e => decide (e.1 = name))).getLast? with
        | some e => some (stubEntryVal e)
        | none => stubLookup acc name := by
  intro lines
  induction lines with
  | nil => intro acc; rfl
  | cons line rest ih =>
    intro acc
    rw [List.foldl_cons, ih, List.filterMap_cons]
    cases hm : matchStubLine line with
    | none => simp [stubStep, hm]
    | some e0 =>
      obtain ⟨n0, t0, d0⟩ := e0
      simp only [stubStep, hm]
      by_cases hn : n0 = name
      · subst hn
        rw [List.filter_cons_of_pos (by simp)]
        cases hl : ((rest.filterMap matchStubLine).filter
            (fun e => decide (e.1 = n0))).getLast? with
        | some e1 =>
          rw [getLast?_cons_eq_of_ne (by
            intro hnil
            rw [hnil] at hl
            exact Option.noConfusion hl), hl]
        | none =>
          rw [getLast?_eq_none_imp hl]
          simp [stubLookup_objSet, stubEntryVal]
      · rw [List.filter_cons_of_neg (by simp [hn])]
        cases hl : ((rest.filterMap matchStubLine).filter
            (fun e => decide (e.1 = name))).getLast? with
        | some e1 => rfl
        | none => simp [stubLookup_objSet, Ne.symm hn]

/-- C9 counterexample: for the stub content `x: A\nx: B` the line `x: A`
matches the declaration pattern with trimmed type `A`, yet the parsed
mapping binds `x` to type `B` (the later line), so the mapping does not
bind the identifier of every matching line to that line's type
expression. -/
theorem parseStub_duplicate_identifier_counterexample :
    matchStubLine "x: A".toList = some ("x".toList, "A".toList, none) ∧
    stubLookup (parseStub "x: A\nx: B".toList) "x".toList =
      some ⟨"B".toList, none⟩ ∧
    ("B".toList : List Char) ≠ "A".toList := by decide

/-- C9 amended: `parseStub` returns a mapping whose entry for each
identifier is the trimmed type expression and trimmed documentation of the
*last* line matching `identifier : type-expression [# documentation]`
with that identifier; identifiers heading no matching line are absent, so
non-matching lines contribute no entry. -/
theorem parseStub_binds_last_match (content name : List Char) :
    stubLookup (parseStub content) name =
      match (((splitLines content).filterMap matchStubLine).filter
          (fun e => decide (e.1 = name))).getLast? with
      | some e => some (stubEntryVal e)
      | none => none := by
  rw [parseStub_eq_foldl, stubLookup_foldl]
  cases (((splitLines content).filterMap matchStubLine).filter
      (fun e => decide (e.1 = name))).getLast? <;> rfl

/-! ### Completion filter and sort (C10) -/

/-- C10: in the attribute-completion path, for every backend item list and
nonempty partial prefix, the returned list is exactly (a permutation
preserving multiplicity of) the items whose name starts with the prefix,
ordered with every non-underscore name before every underscore name and by
the locale comparison `lc` within each group (`lc` is any total
transitive comparison, as `localeCompare` is). -/
theorem completion_filter_sort_spec (lc : List Char → List Char → Int)
    (htot : ∀ a b, lc a b ≤ 0 ∨ lc b a ≤ 0)
    (htrans : ∀ a b c, lc a b ≤ 0 → lc b c ≤ 0 → lc a c ≤ 0)
    (frag : List Char) (items : List BackendItem) (hfrag : frag ≠ []) :
    (completionPipeline lc frag items).Perm
      (items.filter (fun it => frag.isPrefixOf it.name)) ∧
    (completionPipeline lc frag items).Pairwise
      (fun a b => (isPrivateItem a = true → isPrivateItem b = true) ∧
        (isPrivateItem a = isPrivateItem b → lc a.name b.name ≤ 0)) := by
  have hne : frag.isEmpty = false := by
    cases frag with
    | nil => exact absurd rfl hfrag
    | cons c t => rfl
  haveI instTot : IsTotal BackendItem (fun a b => jsSortComparator lc a b ≤ 0) := by
    constructor
    intro a b
    unfold jsSortComparator
    cases ha : isPrivateItem a <;> cases hb : isPrivateItem b <;>
      simp [ha, hb] <;> first | exact htot _ _ | decide | omega
  haveI instTrans : IsTrans BackendItem (fun a b => jsSortComparator lc a b ≤ 0) := by
    constructor
    intro a b c hab hbc
    unfold jsSortComparator at hab hbc ⊢
    cases ha : isPrivateItem a <;> cases hb : isPrivateItem b <;>
      cases hc : isPrivateItem c <;>
      simp [ha, hb, hc] at hab hbc ⊢ <;>
      first | exact htrans _ _ _ hab hbc | decide | omega
  have hperm := List.perm_insertionSort (fun a b => jsSortComparator lc a b ≤ 0)
    (items.filter (fun it => frag.isPrefixOf it.name))
  have hsort := List.sorted_insertionSort (fun a b => jsSortComparator lc a b ≤ 0)
    (items.filter (fun it => frag.isPrefixOf it.name))
  constructor
  · simpa [completionPipeline, hne] using hperm
  · have hout : completionPipeline lc frag items =
        List.insertionSort (fun a b => jsSortComparator lc a b ≤ 0)
          (items.filter (fun it => frag.isPrefixOf it.name)) := by
      simp [completionPipeline, hne]
    rw [hout]
    refine List.Pairwise.imp ?_ hsort
    intro a b hr
    constructor
    · intro hpa
      by_cases hpb : isPrivateItem b = true
      · exact hpb
      · exfalso
        have hbf : isPrivateItem b = false := by
          revert hpb; cases isPrivateItem b <;> simp
        have hcmp : jsSortComparator lc a b = 1 := by
          unfold jsSortComparator
          rw [if_pos (by rw [hpa, hbf]; decide), if_pos hpa]
        rw [hcmp] at hr
        omega
    · intro heq
      have hcmp : jsSortComparator lc a b = lc a.name b.name := by
        unfold jsSortComparator
        rw [if_neg (by rw [heq]; exact fun hne' => hne' rfl)]
      rw [hcmp] at hr
      exact hr

theorem completion_filter_sort_spec_witness :
    (completionPipeline (fun _ _ => 0) "b".toList
        [⟨"_b1".toList, none, none⟩, ⟨"ba".toList, none, none⟩,
         ⟨"xa".toList, none, none⟩, ⟨"bc".toList, none, none⟩]).Perm
      ([⟨"_b1".toList, none, none⟩, ⟨"ba".toList, none, none⟩,
        ⟨"xa".toList, none, none⟩, ⟨"bc".toList, none, none⟩].filter
        (fun it => "b".toList.isPrefixOf it.name)) ∧
    (completionPipeline (fun _ _ => 0) "b".toList
        [⟨"_b1".toList, none, none⟩, ⟨"ba".toList, none, none⟩,
         ⟨"xa".toList, none, none⟩, ⟨"bc".toList, none, none⟩]).Pairwise
      (fun a b => (isPrivateItem a = true → isPrivateItem b = true) ∧
        (isPrivateItem a = isPrivateItem b → (0 : Int) ≤ 0)) :=
  completion_filter_sort_spec (fun _ _ => 0) (fun _ _ => Or.inl (Int.le_refl 0))
    (fun _ _ _ _ _ => Int.le_refl 0) "b".toList
    [⟨"_b1".toList, none, none⟩, ⟨"ba".toList, none, none⟩,
     ⟨"xa".toList, none, none⟩, ⟨"bc".toList, none, none⟩] (by decide)

/-! ### Macro-call and from-import resolution (C5) -/

theorem not_ws_of_word {c : Char} (h : isWordChar c = true) : isJsWs c = false := by
  simp only [isWordChar, Bool.or_eq_true, Bool.and_eq_true, decide_eq_true_eq,
    beq_iff_eq] at h
  simp only [isJsWs]
  rw [Bool.eq_false_iff]
  intro hws
  simp only [Bool.or_eq_true, Bool.and_eq_true, decide_eq_true_eq, beq_iff_eq] at hws
  omega

theorem ne_brace_of_word {c : Char} (h : isWordChar c = true) : c ≠ '{' := by
  intro he
  subst he
  exact absurd h (by decide)

theorem matchIncludeAt_of_ne {cs : List Char} {i : Nat} (h : ¬cs[i]? = some '{') :
    matchIncludeAt cs i = none := by
  simp only [matchIncludeAt, if_neg h]

theorem findIncludeFrom_none_of_no_brace {cs : List Char} (h : ∀ x ∈ cs, x ≠ '{') :
    ∀ fuel i, findIncludeFrom cs fuel i = none := by
  intro fuel
  induction fuel with
  | zero => intro i; rfl
  | succ fuel ih =>
    intro i
    have hm : matchIncludeAt cs i = none := by
      apply matchIncludeAt_of_ne
      intro he
      exact h _ (List.getElem?_mem he) rfl
    unfold findIncludeFrom
    simp only [hm]
    by_cases hlt : i < cs.length
    · simp only [if_pos hlt]
      exact ih (i + 1)
    · simp only [if_neg hlt]

theorem includeLoop_none_of_no_brace {cs : List Char} (h : ∀ x ∈ cs, x ≠ '{')
    (pos : Nat) : ∀ fuel i, includeLoop cs pos fuel i = none := by
  intro fuel i
  cases fuel with
  | zero => rfl
  | succ fuel =>
    unfold includeLoop
    simp only [findIncludeFrom_none_of_no_brace h]

theorem matchImportAt_of_ne {cs : List Char} {i : Nat} (h : ¬cs[i]? = some '{') :
    matchImportAt cs i = none := by
  simp only [matchImportAt, if_neg h]

theorem findImportFrom_none_from {cs : List Char} {i0 : Nat}
    (h : ∀ j, i0 ≤ j → ¬cs[j]? = some '{') :
    ∀ fuel i, i0 ≤ i → findImportFrom cs fuel i = none := by
  intro fuel
  induction fuel with
  | zero => intro i _; rfl
  | succ fuel ih =>
    intro i hi
    unfold findImportFrom
    simp only [matchImportAt_of_ne (h i hi)]
    by_cases hlt : i < cs.length
    · simp only [if_pos hlt]
      exact ih (i + 1) (by omega)
    · simp only [if_neg hlt]

theorem importSearch_none_step {cs name : List Char} {i : Nat}
    (h : findImportFrom cs (cs.length + 1) i = none) :
    ∀ fuel, importSearch cs name fuel i = none := by
  intro fuel
  cases fuel with
  | zero => rfl
  | succ fuel =>
    unfold importSearch
    simp only [h]

/-- The from-import regex matches the example import line at position 0,
whatever text follows the line. -/
theorem importLineEx_spelling :
    importLineEx = "\x7b% from \"macros.jinja\" import greet, farewell %\x7d".toList := by
  decide

theorem countLeading_append_of_lt {p : Char → Bool} {l : List Char} (r : List Char)
    (h : countLeading p l < l.length) : countLeading p (l ++ r) = countLeading p l := by
  induction l with
  | nil => simp [countLeading] at h
  | cons c t ih =>
    by_cases hc : p c = true
    · rw [List.cons_append,
        show countLeading p (c :: (t ++ r)) = countLeading p (t ++ r) + 1 from by
          simp [countLeading, hc],
        show countLeading p (c :: t) = countLeading p t + 1 from by simp [countLeading, hc]]
      have h' : countLeading p t < t.length := by
        have hct : countLeading p (c :: t) = countLeading p t + 1 := by
          simp [countLeading, hc]
        rw [hct, List.length_cons] at h
        omega
      rw [ih h']
    · rw [List.cons_append,
        show countLeading p (c :: (t ++ r)) = 0 from by simp [countLeading, hc],
        show countLeading p (c :: t) = 0 from by simp [countLeading, hc]]

theorem litAt_append {xs : List Char} (rest : List Char) {i : Nat} {lit : List Char}
    (hi : i ≤ xs.length) (h : litAt xs i lit = true) : litAt (xs ++ rest) i lit = true := by
  unfold litAt at h ⊢
  rw [List.drop_append_of_le_length hi]
  exact List.isPrefixOf_iff_prefix.mpr
    ((List.isPrefixOf_iff_prefix.mp h).trans (List.prefix_append _ _))

theorem jsSlice_append {xs : List Char} (rest : List Char) {a b : Nat}
    (hb : b ≤ xs.length) : jsSlice (xs ++ rest) a b = jsSlice xs a b := by
  unfold jsSlice
  rw [List.take_append_of_le_length hb]

/-- The from-import regex matches the example import line at position 0,
whatever text follows: every character the parse inspects lies in the
first 48 characters. -/
theorem matchImportAt_importLineEx (rest : List Char) :
    matchImportAt (importLineEx ++ rest) 0 =
      some ⟨"macros.jinja".toList, ["greet".toList, "farewell".toList], 48⟩ := by
  have hL : importLineEx.length = 48 := by decide
  have e0 : (importLineEx ++ rest)[0]? = some '{' := by
    rw [List.getElem?_append_left (by omega)]; decide
  have e1 : (importLineEx ++ rest)[1]? = some '%' := by
    rw [List.getElem?_append_left (by omega)]; decide
  have d2 : countLeading isJsWs ((importLineEx ++ rest).drop 2) = 1 := by
    rw [List.drop_append_of_le_length (by omega), countLeading_append_of_lt rest (by decide)]
    decide
  have l3 : litAt (importLineEx ++ rest) 3 "from".toList = true :=
    litAt_append rest (by omega) (by decide)
  have d7 : countLeading isJsWs ((importLineEx ++ rest).drop 7) = 1 := by
    rw [List.drop_append_of_le_length (by omega), countLeading_append_of_lt rest (by decide)]
    decide
  have e8 : (importLineEx ++ rest)[8]? = some '"' := by
    rw [List.getElem?_append_left (by omega)]; decide
  have d9 : countLeading (fun c => !(isQuoteChar c)) ((importLineEx ++ rest).drop 9) = 12 := by
    rw [List.drop_append_of_le_length (by omega), countLeading_append_of_lt rest (by decide)]
    decide
  have e21 : (importLineEx ++ rest)[21]? = some '"' := by
    rw [List.getElem?_append_left (by omega)]; decide
  have d22 : countLeading isJsWs ((importLineEx ++ rest).drop 22) = 1 := by
    rw [List.drop_append_of_le_length (by omega), countLeading_append_of_lt rest (by decide)]
    decide
  have l23 : litAt (importLineEx ++ rest) 23 "import".toList = true :=
    litAt_append rest (by omega) (by decide)
  have d29 : countLeading isJsWs ((importLineEx ++ rest).drop 29) = 1 := by
    rw [List.drop_append_of_le_length (by omega), countLeading_append_of_lt rest (by decide)]
    decide
  have d30 : countLeading isImportNameChar ((importLineEx ++ rest).drop 30) = 16 := by
    rw [List.drop_append_of_le_length (by omega), countLeading_append_of_lt rest (by decide)]
    decide
  have cap : jsSlice (importLineEx ++ rest) 30 46 = "greet, farewell ".toList := by
    rw [jsSlice_append rest (by omega)]; decide
  have pathEq : jsSlice (importLineEx ++ rest) 9 21 = "macros.jinja".toList := by
    rw [jsSlice_append rest (by omega)]; decide
  have e46 : (importLineEx ++ rest)[46]? = some '%' := by
    rw [List.getElem?_append_left (by omega)]; decide
  have e47 : (importLineEx ++ rest)[47]? = some '}' := by
    rw [List.getElem?_append_left (by omega)]; decide
  have hq : isQuoteChar '"' = true := by decide
  have hemp : ("greet, farewell ".toList).isEmpty = false := by decide
  have namesEq : (splitOnComma "greet, farewell ".toList).map jsTrim =
      ["greet".toList, "farewell".toList] := by decide
  simp [matchImportAt, e0, e1, d2, l3, d7, e8, hq, d9, e21, d22, l23, d29, d30,
    cap, pathEq, e46, e47, hemp, namesEq]
  exact ⟨by simpa using l3, by simpa using l23, by simpa using namesEq⟩

theorem importSearch_importLineEx (name rest : List Char) (hmem : '{' ∉ rest)
    (hg : name ≠ "greet".toList) (hf : name ≠ "farewell".toList) :
    importSearch (importLineEx ++ rest) name ((importLineEx ++ rest).length + 1) 0 = none := by
  have hL : importLineEx.length = 48 := by decide
  have hfind : findImportFrom (importLineEx ++ rest) ((importLineEx ++ rest).length + 1) 0 =
      some ⟨"macros.jinja".toList, ["greet".toList, "farewell".toList], 48⟩ := by
    unfold findImportFrom
    rw [matchImportAt_importLineEx]
  have hcont : (["greet".toList, "farewell".toList] : List (List Char)).contains name =
      false := by
    simp
    exact ⟨by simpa using hg, by simpa using hf⟩
  have hnone : findImportFrom (importLineEx ++ rest)
      ((importLineEx ++ rest).length + 1) 48 = none := by
    apply @findImportFrom_none_from _ 48 ?_ _ 48 (Nat.le_refl 48)
    intro j hj heq
    rw [List.getElem?_append_right (by omega)] at heq
    exact hmem (List.getElem?_mem heq)
  unfold importSearch
  simp only [hfind]
  rw [if_neg (by rw [hcont]; decide)]
  exact importSearch_none_step hnone _

theorem callNameBefore_name_paren (c : Char) (t : List Char)
    (hstart : isIdentStartChar c = true)
    (hword : ∀ x ∈ c :: t, isWordChar x = true) :
    callNameBefore ((c :: t) ++ ['(']) = some (c :: t) := by
  have hrev : ((c :: t) ++ ['(']).reverse = '(' :: (c :: t).reverse := by simp
  have hdrop : ((c :: t).reverse).dropWhile isJsWs = (c :: t).reverse := by
    rw [List.dropWhile_eq_self_iff]
    intro hl
    have hmem := List.get_mem ((c :: t).reverse) 0 hl
    have hw := hword _ (List.mem_reverse.mp hmem)
    rw [not_ws_of_word hw]
    decide
  have htake : ((c :: t).reverse).takeWhile isWordChar = (c :: t).reverse := by
    rw [List.takeWhile_eq_self_iff]
    intro x hx
    exact hword x (List.mem_reverse.mp hx)
  unfold callNameBefore
  rw [hrev]
  simp only [hdrop, htake, List.reverse_reverse]
  simp [firstIdentSuffix, hstart]

/-- C5: in a document whose text contains
`{% from "macros.jinja" import greet, farewell %}`, resolving the macro
call `greet(` yields a macro-call context carrying source template
`macros.jinja`; resolving a call of any identifier that appears in
no import list of the document yields a macro-call context carrying
no source template (the macro is assumed defined in the same document). -/
theorem importedCall_resolution (c : Char) (t : List Char)
    (hstart : isIdentStartChar c = true)
    (hword : ∀ x ∈ c :: t, isWordChar x = true)
    (hg : c :: t ≠ "greet".toList) (hf : c :: t ≠ "farewell".toList) :
    getDefinitionContext [importLineEx, "greet(".toList] 1 6 =
      some (.mCall "greet".toList (some "macros.jinja".toList)) ∧
    getDefinitionContext [importLineEx, (c :: t) ++ ['(']] 1 ((c :: t).length + 1) =
      some (.mCall (c :: t) none) := by
  constructor
  · decide
  · have hline : ([importLineEx, (c :: t) ++ ['(']] : List (List Char)).getD 1 [] =
        (c :: t) ++ ['('] := rfl
    have hnb : ∀ x ∈ (c :: t) ++ ['('], x ≠ '{' := by
      intro x hx
      rcases List.mem_append.mp hx with h | h
      · exact ne_brace_of_word (hword x h)
      · simp only [List.mem_singleton] at h
        subst h
        decide
    have htakeAll : ((c :: t) ++ ['(']).take ((c :: t).length + 1) = (c :: t) ++ ['('] := by
      apply List.take_of_length_le
      simp
    have hfull : docFullText [importLineEx, (c :: t) ++ ['(']] =
        importLineEx ++ ('\n' :: ((c :: t) ++ ['('])) := by
      simp [docFullText, List.intercalate, List.intersperse]
    have hmem2 : '{' ∉ ('\n' :: ((c :: t) ++ ['('])) := by
      intro hx
      rcases List.mem_cons.mp hx with h | h
      · exact absurd h (by decide)
      · exact hnb _ h rfl
    simp only [getDefinitionContext, hline, includeLoop_none_of_no_brace hnb, htakeAll,
      callNameBefore_name_paren c t hstart hword, hfull,
      importSearch_importLineEx (c :: t) ('\n' :: ((c :: t) ++ ['('])) hmem2 hg hf]

theorem importedCall_resolution_witness :
    getDefinitionContext [importLineEx, "greet(".toList] 1 6 =
      some (.mCall "greet".toList (some "macros.jinja".toList)) ∧
    getDefinitionContext [importLineEx, "shout(".toList] 1 6 =
      some (.mCall "shout".toList none) :=
  ⟨(importedCall_resolution 's' "hout".toList (by decide)
      (by decide) (by decide) (by decide)).1,
   (importedCall_resolution 's' "hout".toList (by decide)
      (by decide) (by decide) (by decide)).2⟩
